import Mathlib

/-!
# Verification of the iplex.uz static-site build pipeline (`src/build.py`)

This file gives a shallow embedding, in Lean 4, of the text-processing core of
the repository's build script: whitespace normalization, sentence/word chunking
of long texts for the bounded translation provider (`translate_text`,
`build.py:246-325`), the translation cache and retry loop
(`translate_text_single`, `build.py:328-374`), the progress ledger
(`is_post_processed`, `build.py:140-153`), the scheduler's index ordering
(`main`, `build.py:1088-1145`), slug and excerpt derivation (`generate_slug`,
`extract_meta_description`), and cross-reference assignment
(`assign_internal_links`, `build.py:599-607` and `main`, `build.py:1159-1171`).

Modelling conventions:
* Python strings are sequences of characters: `PyStr := List Char`, so `len`,
  slicing and splitting translate directly.
* The external translation provider is an oracle parameter
  `Nat → PyStr → Except Unit PyStr` (indexed by a global call counter so each
  live attempt may behave differently); an `Except.error` models a raised
  exception inside the provider call.
* The cache is an association list keyed by `(text, targetLanguage)` — the
  source keys cache files by the md5 of exactly that pair (`get_cache_key`,
  `build.py:80-83`); a cryptographic fingerprint of the pair is modelled by
  the pair itself (the spec, §4.1, assumes the hash is collision-free).  A
  later `put` of the same key shadows the earlier one, matching the
  last-write-wins file semantics.  `TransState` also records the total number
  of live provider calls and the sequence of cache keys looked up, which are
  the observables the cache-related claims speak about.
* The numeric configuration constants of `build.py` (chunk threshold 4000,
  `MAX_RETRIES = 5`) form a `TransConfig` record, as in the spec's
  configuration surface (§6); `defaultConfig` is the source's instantiation.
* Time delays (`time.sleep`) have no observable effect in this model and are
  dropped; `random` draws are explicit parameters.
-/

/-- Python strings are sequences of characters. -/
abbrev PyStr := List Char

namespace Build

/-! ## Basic Python string operations -/

/-- Python `str.strip()`: remove leading and trailing whitespace. -/
def pyStrip (l : PyStr) : PyStr :=
  ((l.dropWhile Char.isWhitespace).reverse.dropWhile Char.isWhitespace).reverse

/-- Auxiliary for Python `str.split()` (split on whitespace runs, dropping
empty pieces); `acc` holds the current word reversed. -/
def splitWsGo : PyStr → PyStr → List PyStr
  | [], acc => if acc = [] then [] else [acc.reverse]
  | c :: rest, acc =>
    if c.isWhitespace then
      if acc = [] then splitWsGo rest [] else acc.reverse :: splitWsGo rest []
    else splitWsGo rest (c :: acc)

/-- Python `str.split()` with no argument. -/
def pySplitWs (l : PyStr) : List PyStr := splitWsGo l []

/-- Python `' '.join(text.split())`: collapse whitespace runs to single
spaces and strip the ends (`build.py:269`). -/
def normalizeWs (l : PyStr) : PyStr := List.intercalate [' '] (pySplitWs l)

/-- Auxiliary for Python `text.split('. ')` (`build.py:275`): leftmost,
non-overlapping matches of the two-character separator; `acc` holds the
current piece reversed. -/
def splitDot : PyStr → PyStr → List PyStr
  | [], acc => [acc.reverse]
  | [c], acc => (c :: acc).reverse :: []
  | c1 :: c2 :: rest, acc =>
    if c1 = '.' ∧ c2 = ' ' then acc.reverse :: splitDot rest []
    else splitDot (c2 :: rest) (c1 :: acc)

/-- Python `text.split('. ')`. -/
def pySplitDot (l : PyStr) : List PyStr := splitDot l []

/-! ## Chunker (`translate_text`, `build.py:271-309`)

The state of the sentence-accumulation loop: the list of closed chunks and the
current chunk being accumulated (`chunks` / `current_chunk`). -/

structure ChunkSt where
  chunks : List PyStr
  current : PyStr
deriving DecidableEq

/-- One step of the inner word-accumulation loop (`build.py:290-296`), used
when a single sentence exceeds the chunk limit.  State: (closed chunks,
current word chunk). -/
def wordStep (maxLen : Nat) (st : List PyStr × PyStr) (word : PyStr) :
    List PyStr × PyStr :=
  if st.2.length + word.length + 1 > maxLen then
    ((if st.2 ≠ [] then st.1 ++ [pyStrip st.2] else st.1), word ++ [' '])
  else (st.1, st.2 ++ word ++ [' '])

/-- One step of the sentence-accumulation loop (`build.py:279-302`). -/
def sentenceStep (maxLen : Nat) (st : ChunkSt) (sentence : PyStr) : ChunkSt :=
  let swd := sentence ++ ['.', ' ']
  if st.current.length + swd.length > maxLen then
    let chunks := if st.current ≠ [] then st.chunks ++ [pyStrip st.current] else st.chunks
    if sentence.length > maxLen then
      let res := (pySplitWs sentence).foldl (wordStep maxLen) (chunks, [])
      { chunks := res.1, current := if res.2 ≠ [] then res.2 else st.current }
    else { chunks := chunks, current := swd }
  else { chunks := st.chunks, current := st.current ++ swd }

/-- Auxiliary for the character-count fallback split (`build.py:309`); the
fuel argument bounds the recursion (with step `n ≥ 1` the fuel `l.length`
is always enough, and the source only reaches this with `n = 4000`). -/
def chunkEveryGo (n : Nat) : Nat → PyStr → List PyStr
  | 0, _ => []
  | _, [] => []
  | fuel + 1, l => l.take n :: chunkEveryGo n fuel (l.drop n)

/-- Python `[text[i:i+n] for i in range(0, len(text), n)]` (`build.py:309`). -/
def chunkEvery (n : Nat) (l : PyStr) : List PyStr := chunkEveryGo n l.length l

/-- The chunk-splitting pass of `translate_text` (`build.py:273-309`), applied
to the whitespace-normalized text when it exceeds the chunk threshold. -/
def splitChunks (maxLen : Nat) (textClean : PyStr) : List PyStr :=
  let sentences := pySplitDot textClean
  let st := sentences.foldl (sentenceStep maxLen) ⟨[], []⟩
  let chunks := if st.current ≠ [] then st.chunks ++ [pyStrip st.current] else st.chunks
  if chunks = [] then chunkEvery maxLen textClean else chunks

/-- Reassembly of translated chunks: `" ".join(translated_chunks)`
(`build.py:319`). -/
def joinChunks (chunks : List PyStr) : PyStr := List.intercalate [' '] chunks

/-! ## Translation cache, retry loop, and `translate_text` -/

/-- Configuration constants of the translation step (spec §6 configuration
surface). -/
structure TransConfig where
  maxChunkLength : Nat
  maxRetries : Nat
deriving DecidableEq

/-- The source's constants: `max_chunk_length = 4000` (`build.py:272`),
`MAX_RETRIES = 5` (`build.py:42`). -/
def defaultConfig : TransConfig := { maxChunkLength := 4000, maxRetries := 5 }

/-- A cache key: the `(text, target_language)` pair fingerprinted by
`get_cache_key` (`build.py:80-83`). -/
abbrev CacheKey := PyStr × PyStr

/-- Observable state threaded through a translation: the cache contents, the
number of live provider calls made so far, and the sequence of cache keys
that have been looked up. -/
structure TransState where
  cache : List (CacheKey × PyStr)
  calls : Nat
  lookups : List CacheKey
deriving DecidableEq

/-- Fresh state: empty cache, no calls, no lookups. -/
def initState : TransState := ⟨[], 0, []⟩

/-- Association-list lookup; the first (most recently written) binding wins. -/
def alistLookup {α β : Type} [DecidableEq α] : List (α × β) → α → Option β
  | [], _ => none
  | (k', v) :: rest, k => if k' = k then some v else alistLookup rest k

/-- `load_from_cache` (`build.py:89-100`), with the key logged. -/
def cacheGetL (st : TransState) (text target : PyStr) : Option PyStr × TransState :=
  (alistLookup st.cache (text, target),
   { st with lookups := st.lookups ++ [(text, target)] })

/-- `save_to_cache` (`build.py:103-111`); a newer binding shadows an older
one with the same key. -/
def cachePut (st : TransState) (text target translated : PyStr) : TransState :=
  { st with cache := ((text, target), translated) :: st.cache }

/-- Python truthiness of an optional cached string: `if cached:` treats both
`None` and the empty string as a miss. -/
def truthy : Option PyStr → Option PyStr
  | some c => if c = [] then none else some c
  | none => none

/-- The external translation provider: given the global call counter and the
text, either return a translation or raise. -/
abbrev Oracle := Nat → PyStr → Except Unit PyStr

/-- A provider that always returns `f text` and never raises. -/
def pureOracle (f : PyStr → PyStr) : Oracle := fun _ text => Except.ok (f text)

/-- The retry loop of `translate_text_single` (`build.py:341-373`): up to
`fuel` attempts; a returned value that is empty or identical to the input is
a soft failure; a raise is retried; exhaustion returns the input text. -/
def attemptLoop (oracle : Oracle) (target text : PyStr) (useCache : Bool) :
    Nat → TransState → PyStr × TransState
  | 0, st => (text, st)
  | fuel + 1, st =>
    let st1 := { st with calls := st.calls + 1 }
    match oracle st.calls text with
    | Except.ok translated =>
      if translated ≠ [] ∧ translated ≠ text then
        (translated, if useCache then cachePut st1 text target translated else st1)
      else attemptLoop oracle target text useCache fuel st1
    | Except.error _ => attemptLoop oracle target text useCache fuel st1

/-- `translate_text_single` (`build.py:328-374`).  The `source_lang` argument
of the source only parameterizes the provider and is absorbed into the
oracle. -/
def translate_text_single (oracle : Oracle) (cfg : TransConfig) (target text : PyStr)
    (useCache : Bool) (st : TransState) : PyStr × TransState :=
  if pyStrip text = [] then (text, st)
  else if useCache then
    let r := cacheGetL st text target
    match truthy r.1 with
    | some c => (c, r.2)
    | none => attemptLoop oracle target text useCache cfg.maxRetries r.2
  else attemptLoop oracle target text useCache cfg.maxRetries st

/-- The chunk-translation loop of `translate_text` (`build.py:312-317`):
translate each chunk in order through `translate_text_single`, threading the
cache state. -/
def translateChunks (oracle : Oracle) (cfg : TransConfig) (target : PyStr)
    (useCache : Bool) : List PyStr → TransState → List PyStr × TransState
  | [], st => ([], st)
  | c :: cs, st =>
    let r := translate_text_single oracle cfg target c useCache st
    let rs := translateChunks oracle cfg target useCache cs r.2
    (r.1 :: rs.1, rs.2)

/-- `translate_text` (`build.py:246-325`).  The `recursion_depth` guard of the
source is dead code — every call site passes the default `0` and the chunk
path calls the non-recursive `translate_text_single` — so it is omitted. -/
def translate_text (oracle : Oracle) (cfg : TransConfig) (target text : PyStr)
    (useCache : Bool) (st : TransState) : PyStr × TransState :=
  if pyStrip text = [] then (text, st)
  else
    let hit := if useCache then cacheGetL st text target else (none, st)
    match truthy hit.1 with
    | some c => (c, hit.2)
    | none =>
      let textClean := normalizeWs text
      if textClean.length > cfg.maxChunkLength then
        let chunks := splitChunks cfg.maxChunkLength textClean
        let rs := translateChunks oracle cfg target useCache chunks hit.2
        let result := joinChunks rs.1
        let st3 := if useCache then cachePut rs.2 text target result else rs.2
        (result, st3)
      else translate_text_single oracle cfg target textClean useCache hit.2

/-! ## Slug derivation (`generate_slug`, `build.py:531-539`) -/

/-- The character class of the regex `\w` (on the ASCII-alphanumeric
fragment relevant here): letters, digits, underscore. -/
def isWordChar (c : Char) : Bool := c.isAlphanum || c = '_'

/-- The character class of the regex `[-\s]`. -/
def isHyphenSpace (c : Char) : Bool := c = '-' || c.isWhitespace

/-- `re.sub(r'[-\s]+', '-', s)` (`build.py:538`): replace every maximal run
of hyphens/whitespace by a single hyphen.  The Boolean argument records
whether the scan is currently inside such a run (so only the run's first
character emits the hyphen). -/
def collapseRuns : Bool → PyStr → PyStr
  | _, [] => []
  | inRun, c :: rest =>
    if isHyphenSpace c then
      if inRun then collapseRuns true rest
      else '-' :: collapseRuns true rest
    else c :: collapseRuns false rest

/-- `generate_slug` (`build.py:531-539`): lowercase, drop characters outside
`[\w\s-]`, collapse hyphen/whitespace runs to single hyphens, truncate to 100
characters. -/
def generate_slug (title : PyStr) : PyStr :=
  (collapseRuns false ((title.map Char.toLower).filter
    (fun c => isWordChar c || c.isWhitespace || c = '-'))).take 100

/-- One step of an alternative run-collapsing pass, written from the spec's
words ("collapse whitespace/hyphen runs to single hyphens"): the Boolean state
records whether the previous character was part of a hyphen/whitespace run. -/
def specCollapseStep (acc : PyStr × Bool) (c : Char) : PyStr × Bool :=
  if isHyphenSpace c then (if acc.2 then acc.1 else acc.1 ++ ['-'], true)
  else (acc.1 ++ [c], false)

/-- Run collapsing as described by the spec sentence, via a left fold. -/
def specCollapse (l : PyStr) : PyStr := (l.foldl specCollapseStep ([], false)).1

/-- The slug pipeline exactly as the spec sentence describes it: lowercase,
strip characters outside the word/space/hyphen classes, collapse every run of
whitespace or hyphens to a single hyphen, truncate to 100 characters. -/
def slugSpec (title : PyStr) : PyStr :=
  (specCollapse ((title.map Char.toLower).filter
    (fun c => isWordChar c || c.isWhitespace || c = '-'))).take 100

/-! ## Excerpt derivation (`extract_meta_description`, `build.py:411-430`)

The markup-stripping step (`soup.get_text`) belongs to an external library;
the function is modelled from the extracted plain text onward, which is what
the length claim is about. -/

/-- Auxiliary for Python `str.rfind`: index of the last occurrence, `-1` if
absent. -/
def pyRfindAux (c : Char) : PyStr → Nat → Int → Int
  | [], _, best => best
  | d :: rest, i, best => pyRfindAux c rest (i + 1) (if d = c then (i : Int) else best)

/-- Python `text.rfind(c)`. -/
def pyRfind (c : Char) (l : PyStr) : Int := pyRfindAux c l 0 (-1)

/-- `extract_meta_description` (`build.py:411-430`) on the markup-stripped
text.  The source's cut-point test `last_period > max_length * 0.7` is a
floating-point comparison; it is modelled by the exact rational comparison
`10 * last_period > 7 * max_length` (for inputs where the two differ, both
branches still satisfy every property stated below). -/
def extract_meta_description (text : PyStr) (maxLength : Nat) : PyStr :=
  if text.length > maxLength then
    let truncated := text.take maxLength
    let lastPeriod := pyRfind '.' truncated
    if 10 * lastPeriod > 7 * (maxLength : Int) then truncated.take (lastPeriod.toNat + 1)
    else truncated ++ ['.', '.', '.']
  else text

/-! ## Progress ledger (`is_post_processed`, `build.py:140-153`) -/

/-- A ledger entry as written by `process_single_article` (`build.py:654-659`);
only the fields read by `is_post_processed` matter for the claims below. -/
structure LedgerEntry where
  title : PyStr
  filename : PyStr
  slug : PyStr
deriving DecidableEq

/-- The per-language ledger: record index (Python uses `str(post_index)` as
the dictionary key, an injective encoding of the index) to entry. -/
abbrev LangLedger := List (Nat × LedgerEntry)

/-- The whole progress dictionary: language code to per-language ledger. -/
abbrev Progress := List (PyStr × LangLedger)

/-- `os.path.join(OUTPUT_DIR, lang_code, filename)` with `OUTPUT_DIR =
"output"` (`build.py:38,151`). -/
def artifactPath (langCode filename : PyStr) : PyStr :=
  "output/".toList ++ langCode ++ ['/'] ++ filename

/-- `is_post_processed` (`build.py:140-153`): the ledger entry alone is not
enough — the output artifact derived from the stored title must still exist.
`fsExists` is the set of paths present on disk; the source's unused `posts`
argument is omitted. -/
def is_post_processed (postIndex : Nat) (langCode : PyStr) (progress : Progress)
    (fsExists : List PyStr) : Bool :=
  match alistLookup progress langCode with
  | none => false
  | some langLedger =>
    match alistLookup langLedger postIndex with
    | none => false
    | some entry =>
      let slug := generate_slug entry.title
      let filename := slug ++ ".html".toList
      decide (artifactPath langCode filename ∈ fsExists)

/-! ## Scheduler ordering (`main`, `build.py:1088-1145`) -/

/-- The part of a processed-article record relevant to the ordering claim:
its original record index (the `'index'` field set both for skipped items,
`build.py:1097`, and worker results, `build.py:667`) plus a payload. -/
structure PArticle where
  index : Nat
  title : PyStr
deriving DecidableEq

/-- The sort key relation of `processed_posts.sort(key=lambda x: x['index'])`
(`build.py:1145`). -/
def leIdx (a b : PArticle) : Prop := a.index ≤ b.index

instance : DecidableRel leIdx := fun a b => Nat.decLe a.index b.index

instance : IsTotal PArticle leIdx := ⟨fun a b => Nat.le_total a.index b.index⟩

instance : IsTrans PArticle leIdx := ⟨fun _ _ _ h1 h2 => Nat.le_trans h1 h2⟩

/-- Python `list.sort(key=lambda x: x['index'])`: a stable sort by index,
modelled by stable insertion sort. -/
def sortByIndex (l : List PArticle) : List PArticle := List.insertionSort leIdx l

/-- The per-language aggregation of `main` (`build.py:1088-1145`): the
pre-pass appends the already-done records in index order (`build.py:1089-1100`),
the workers' results arrive in an arbitrary completion order
(`as_completed`, `build.py:1119-1125`), and the combined list is sorted by
original record index (`build.py:1145`).  `done i` says record `i` was
already durably completed; `completionOrder` lists the indices of the pending
records in the order their workers finish. -/
def schedulerResult (count : Nat) (done : Nat → Bool)
    (ledgerTitle workerTitle : Nat → PyStr) (completionOrder : List Nat) :
    List PArticle :=
  let skipped := ((List.range count).filter done).map
    (fun i => { index := i, title := ledgerTitle i : PArticle })
  let completed := completionOrder.map
    (fun i => { index := i, title := workerTitle i : PArticle })
  sortByIndex (skipped ++ completed)

/-! ## Cross-reference assignment (`assign_internal_links`, `build.py:599-607`
and `main`, `build.py:1159-1171`) -/

/-- `MIN_INTERNAL_LINKS` (`build.py:64`). -/
def MIN_INTERNAL_LINKS : Nat := 5

/-- `MAX_INTERNAL_LINKS` (`build.py:65`). -/
def MAX_INTERNAL_LINKS : Nat := 10

/-- Python `random.randint(a, b)`: a uniform draw from `[a, b]`, modelled by
an arbitrary `choice` reduced into the range; `b < a` raises `ValueError`
("empty range"), modelled as `none`. -/
def pyRandint (a b choice : Nat) : Option Nat :=
  if b < a then none else some (a + choice % (b - a + 1))

/-- Python `random.sample(pool, k)`: `k` draws without replacement; the
`picks` list supplies the randomness (each draw removes the chosen element
from the pool, so for a duplicate-free pool the result is duplicate-free,
which is the guarantee `random.sample` documents). -/
def pySample {α : Type} [DecidableEq α] : List Nat → List α → Nat → List α
  | _, _, 0 => []
  | _, [], _ + 1 => []
  | picks, p :: ps, k + 1 =>
    let pool := p :: ps
    let i := picks.headD 0 % pool.length
    let x := pool.getD i p
    x :: pySample picks.tail (pool.erase x) k

/-- `assign_internal_links` (`build.py:599-607`): the candidate pool excludes
the current article; if it is smaller than the requested count the whole pool
is returned, otherwise a random sample of the requested size. -/
def assign_internal_links (currentIndex totalPosts numLinks : Nat)
    (picks : List Nat) : List Nat :=
  let available := (List.range totalPosts).filter (fun i => i ≠ currentIndex)
  if available.length < numLinks then available
  else pySample picks available numLinks

/-- The per-article link-count draw and assignment of `main`
(`build.py:1162-1163`): `num_links = random.randint(MIN_INTERNAL_LINKS,
min(MAX_INTERNAL_LINKS, len(processed_posts) - 1))`, then
`assign_internal_links`; `none` models the `ValueError` escaping from
`random.randint` when the range is empty. -/
def linkAssignmentStep (totalPosts currentIndex choice : Nat)
    (picks : List Nat) : Option (List Nat) :=
  match pyRandint MIN_INTERNAL_LINKS (min MAX_INTERNAL_LINKS (totalPosts - 1)) choice with
  | none => none
  | some numLinks => some (assign_internal_links currentIndex totalPosts numLinks picks)

/-! ## Proof-support predicates

These predicates are not part of the embedding; they name invariants used by
the proofs below. -/

/-- The first character, if any, is not whitespace. -/
def HeadOk (l : PyStr) : Prop := ∀ h ∈ l.head?, h.isWhitespace = false

/-- The last character, if any, is not whitespace. -/
def LastOk (l : PyStr) : Prop := ∀ h ∈ l.getLast?, h.isWhitespace = false

/-- No two adjacent characters are both whitespace. -/
def NoWsPair (l : PyStr) : Prop :=
  List.Chain' (fun a b => a.isWhitespace = false ∨ b.isWhitespace = false) l

/-- Shape of a whitespace-normalized string: non-whitespace ends and no two
adjacent whitespace characters. -/
def WellSpaced (l : PyStr) : Prop := HeadOk l ∧ LastOk l ∧ NoWsPair l

/-- Every word is nonempty and free of whitespace (shape of `str.split()`
output). -/
def goodWords (ws : List PyStr) : Prop :=
  ∀ w ∈ ws, w ≠ [] ∧ ∀ c ∈ w, c.isWhitespace = false

/-- Concatenation of sentences with the `". "` delimiter re-appended to each,
as the sentence loop of `translate_text` does. -/
def dcat (ss : List PyStr) : PyStr := (ss.map (fun s => s ++ ['.', ' '])).flatten

/-- The string contains at least one non-whitespace character. -/
def HasInk (l : PyStr) : Prop := ∃ c ∈ l, c.isWhitespace = false

/-- The chunker-state reconstruction measure: closed chunks each followed by
one space, then the open chunk. -/
def chunkJ (st : ChunkSt) : PyStr :=
  (st.chunks.map (fun c => c ++ [' '])).flatten ++ st.current

/-- Side condition maintained by the sentence loop: the open chunk is empty
or starts with a non-whitespace character and ends with `". "`. -/
def chunkSC (st : ChunkSt) : Prop :=
  st.current = [] ∨ (HeadOk st.current ∧ ∃ u, st.current = u ++ ['.', ' '])

/-- Nonemptiness invariant of the chunker state: every closed chunk is
nonempty, and the open chunk is empty or contains a non-whitespace
character. -/
def chunkOk (st : ChunkSt) : Prop :=
  (∀ c ∈ st.chunks, c ≠ []) ∧ (st.current = [] ∨ HasInk st.current)

/-! ## General helper lemmas -/

theorem intercalate_cons_of_ne_nil {α : Type} (s a : List α) (bs : List (List α))
    (h : bs ≠ []) :
    List.intercalate s (a :: bs) = a ++ s ++ List.intercalate s bs := by
  cases bs with
  | nil => exact absurd rfl h
  | cons b t => simp [List.intercalate, List.intersperse]

theorem splitDot_ne_nil (l acc : PyStr) : splitDot l acc ≠ [] := by
  induction l, acc using splitDot.induct with
  | case1 acc => simp [splitDot]
  | case2 c acc => simp [splitDot]
  | case3 c1 c2 rest acc h ih => simp [splitDot, h]
  | case4 c1 c2 rest acc h ih => simpa [splitDot, h] using ih

theorem intercalate_splitDot (l acc : PyStr) :
    List.intercalate ['.', ' '] (splitDot l acc) = acc.reverse ++ l := by
  induction l, acc using splitDot.induct with
  | case1 acc => simp [splitDot, List.intercalate]
  | case2 c acc => simp [splitDot, List.intercalate]
  | case3 c1 c2 rest acc h ih =>
    obtain ⟨hh1, hh2⟩ := h
    subst hh1 hh2
    rw [splitDot, if_pos ⟨rfl, rfl⟩,
      intercalate_cons_of_ne_nil _ _ _ (splitDot_ne_nil rest []), ih]
    simp
  | case4 c1 c2 rest acc h ih =>
    rw [splitDot, if_neg h, ih]
    simp

/-! ## C9: excerpt length bound -/

/-- **C9.** For every (markup-stripped) content string and budget
`maxLength`, the extracted meta description has length at most
`maxLength + 3`: the character budget can be exceeded only by the 3-character
ellipsis marker appended when no late-enough sentence boundary exists
(`extract_meta_description`, `build.py:411-430`). -/
theorem c9_meta_description_length (text : PyStr) (maxLength : Nat) :
    (extract_meta_description text maxLength).length ≤ maxLength + 3 := by
  unfold extract_meta_description
  dsimp only
  split
  · split
    · simp only [List.length_take]
      omega
    · simp only [List.length_append, List.length_take, List.length_cons,
        List.length_nil]
      omega
  · omega

/-! ## C10: cross-reference lists are duplicate-free -/

theorem getD_mem {α : Type} (l : List α) (i : Nat) (d : α) (hd : d ∈ l) :
    l.getD i d ∈ l := by
  rw [List.getD_eq_getElem?_getD]
  rcases h : l[i]? with _ | y
  · simpa using hd
  · have h2 : l.get? i = some y := by simpa [List.get?_eq_getElem?] using h
    simpa using List.get?_mem h2

theorem pySample_mem {α : Type} [DecidableEq α] :
    ∀ (picks : List Nat) (pool : List α) (k : Nat) (x : α),
      x ∈ pySample picks pool k → x ∈ pool := by
  intro picks pool k
  induction k generalizing picks pool with
  | zero => intro x hx; simp [pySample] at hx
  | succ k ih =>
    intro x hx
    cases pool with
    | nil => simp [pySample] at hx
    | cons p ps =>
      simp only [pySample, List.mem_cons] at hx
      rcases hx with hx | hx
      · rw [hx]
        exact getD_mem _ _ _ (List.mem_cons_self p ps)
      · exact List.erase_subset _ _ (ih picks.tail _ x hx)

theorem pySample_nodup {α : Type} [DecidableEq α] :
    ∀ (picks : List Nat) (pool : List α) (k : Nat),
      pool.Nodup → (pySample picks pool k).Nodup := by
  intro picks pool k
  induction k generalizing picks pool with
  | zero => intro _; simp [pySample]
  | succ k ih =>
    intro hpool
    cases pool with
    | nil => simp [pySample]
    | cons p ps =>
      simp only [pySample]
      refine List.Nodup.cons ?_ (ih picks.tail _ (hpool.erase _))
      intro hmem
      exact hpool.not_mem_erase (pySample_mem _ _ _ _ hmem)

/-- **C10.** The cross-reference index list assigned to an article contains no
duplicates, both when the pool is sampled and when the whole remaining pool is
returned (`assign_internal_links`, `build.py:599-607`). -/
theorem c10_links_nodup (currentIndex totalPosts numLinks : Nat) (picks : List Nat) :
    (assign_internal_links currentIndex totalPosts numLinks picks).Nodup := by
  unfold assign_internal_links
  dsimp only
  have hav : ((List.range totalPosts).filter (fun i => decide (i ≠ currentIndex))).Nodup :=
    (List.nodup_range totalPosts).filter _
  split
  · exact hav
  · exact pySample_nodup _ _ _ hav

/-! ## C5: the link-count draw crashes on small pools -/

/-- **C5 (failing input).**  With `N = 2` processed articles the claim asks
for a cross-reference list of size `min(MIN, N-1) = min(MAX, N-1) = 1`, but
the code computes `random.randint(5, min(10, 1))`, an empty range, which
raises `ValueError` (modelled by `none`) and aborts the whole build — for any
random draw (`main`, `build.py:1162`). -/
theorem c5_randint_empty_range (choice : Nat) (picks : List Nat) :
    linkAssignmentStep 2 0 choice picks = none := by
  simp [linkAssignmentStep, pyRandint, MIN_INTERNAL_LINKS, MAX_INTERNAL_LINKS]

/-! ## C8: the slug pipeline matches its description -/

theorem foldl_specCollapseStep (l : PyStr) :
    ∀ (acc : PyStr) (b : Bool),
      (l.foldl specCollapseStep (acc, b)).1 = acc ++ collapseRuns b l := by
  induction l with
  | nil => intro acc b; simp [collapseRuns]
  | cons c rest ih =>
    intro acc b
    by_cases hc : isHyphenSpace c
    · cases b with
      | false =>
        rw [List.foldl_cons,
          show specCollapseStep (acc, false) c = (acc ++ ['-'], true) by
            simp [specCollapseStep, hc],
          ih (acc ++ ['-']) true, collapseRuns, if_pos hc]
        simp
      | true =>
        rw [List.foldl_cons,
          show specCollapseStep (acc, true) c = (acc, true) by
            simp [specCollapseStep, hc],
          ih acc true, collapseRuns, if_pos hc]
        simp
    · rw [List.foldl_cons,
        show specCollapseStep (acc, b) c = (acc ++ [c], false) by
          simp [specCollapseStep, hc],
        ih (acc ++ [c]) false, collapseRuns, if_neg hc]
      simp

/-- **C8.** For every title, the slug computed by `generate_slug`
(`build.py:531-539`) equals the pipeline the spec describes: lowercase, strip
characters outside the word/space/hyphen classes, collapse every run of
whitespace or hyphens to a single hyphen, truncate to 100 characters
(`slugSpec`, a second formalization written from the spec's words). -/
theorem c8_slug_matches_spec (title : PyStr) : generate_slug title = slugSpec title := by
  unfold generate_slug slugSpec specCollapse
  rw [foldl_specCollapseStep _ [] false]
  simp

/-! ## C7: ledger entries without artifacts are not done -/

/-- **C7.** `is_post_processed` (`build.py:140-153`) returns `false` whenever
the progress ledger has an entry for `(language, index)` but the output
artifact derived from that entry is absent from disk, so the item is treated
as not done and reprocessed. -/
theorem c7_missing_artifact_not_done (postIndex : Nat) (langCode : PyStr)
    (progress : Progress) (fsExists : List PyStr) (langLedger : LangLedger)
    (entry : LedgerEntry)
    (hlang : alistLookup progress langCode = some langLedger)
    (hentry : alistLookup langLedger postIndex = some entry)
    (hmissing :
      artifactPath langCode (generate_slug entry.title ++ ".html".toList) ∉ fsExists) :
    is_post_processed postIndex langCode progress fsExists = false := by
  unfold is_post_processed
  rw [hlang]
  dsimp only
  rw [hentry]
  simpa using hmissing

theorem c7_missing_artifact_not_done_witness :
    is_post_processed 0 "en".toList
      [("en".toList, [(0, { title := "Hi".toList, filename := "hi.html".toList,
                            slug := "hi".toList })])]
      ["output/en/other.html".toList] = false :=
  c7_missing_artifact_not_done 0 "en".toList
    [("en".toList, [(0, { title := "Hi".toList, filename := "hi.html".toList,
                          slug := "hi".toList })])]
    ["output/en/other.html".toList]
    [(0, { title := "Hi".toList, filename := "hi.html".toList,
           slug := "hi".toList })]
    { title := "Hi".toList, filename := "hi.html".toList, slug := "hi".toList }
    (by decide) (by decide) (by decide)

/-! ## C2: the scheduler hands downstream indices 0..N-1 in order -/

/-- **C2.** After a full pass over `count` records in one language — the
already-done records reconstructed by the pre-pass (`build.py:1089-1100`)
combined with the pending records completing in an arbitrary worker order
(`build.py:1119-1125`) — the sorted result handed downstream
(`build.py:1145`) carries indices exactly `0 .. count-1` in ascending
order. -/
theorem c2_scheduler_index_order (count : Nat) (done : Nat → Bool)
    (ledgerTitle workerTitle : Nat → PyStr) (completionOrder : List Nat)
    (horder : List.Perm completionOrder
      ((List.range count).filter (fun i => !done i))) :
    (schedulerResult count done ledgerTitle workerTitle completionOrder).map
      PArticle.index = List.range count := by
  unfold schedulerResult sortByIndex
  dsimp only
  set skipped := ((List.range count).filter done).map
    (fun i => { index := i, title := ledgerTitle i : PArticle }) with hskipped
  set completed := completionOrder.map
    (fun i => { index := i, title := workerTitle i : PArticle }) with hcompleted
  have hperm : List.Perm
      ((List.insertionSort leIdx (skipped ++ completed)).map PArticle.index)
      (List.range count) := by
    have h1 : List.Perm (List.insertionSort leIdx (skipped ++ completed))
        (skipped ++ completed) := List.perm_insertionSort leIdx _
    refine (h1.map PArticle.index).trans ?_
    have h2 : (skipped ++ completed).map PArticle.index =
        (List.range count).filter done ++ completionOrder := by
      rw [hskipped, hcompleted, List.map_append, List.map_map, List.map_map]
      have hid : (PArticle.index ∘ fun i => { index := i, title := ledgerTitle i :
          PArticle }) = fun i => i := rfl
      have hid2 : (PArticle.index ∘ fun i => { index := i, title := workerTitle i :
          PArticle }) = fun i => i := rfl
      rw [hid, hid2, List.map_id', List.map_id']
    rw [h2]
    exact ((List.Perm.append_left _ horder).trans
      ((List.range count).filter_append_perm done))
  have hsorted : List.Sorted (· ≤ ·)
      ((List.insertionSort leIdx (skipped ++ completed)).map PArticle.index) := by
    have hs := List.sorted_insertionSort leIdx (skipped ++ completed)
    exact List.Pairwise.map PArticle.index (fun a b hab => hab) hs
  exact List.eq_of_perm_of_sorted hperm hsorted
    ((List.pairwise_lt_range count).imp le_of_lt)

theorem c2_scheduler_index_order_witness :
    (schedulerResult 3 (fun i => i == 1) (fun _ => []) (fun _ => []) [2, 0]).map
      PArticle.index = List.range 3 :=
  c2_scheduler_index_order 3 (fun i => i == 1) (fun _ => []) (fun _ => []) [2, 0]
    (by decide)

/-! ## C6: exhausted retries degrade to the original text -/

theorem attemptLoop_fail (oracle : Oracle) (target text : PyStr) (useCache : Bool)
    (hfail : ∀ n r, oracle n text = Except.ok r → r = [] ∨ r = text) :
    ∀ (fuel : Nat) (st : TransState),
      (attemptLoop oracle target text useCache fuel st).1 = text ∧
      (attemptLoop oracle target text useCache fuel st).2.calls ≤ st.calls + fuel ∧
      (attemptLoop oracle target text useCache fuel st).2.cache = st.cache := by
  intro fuel
  induction fuel with
  | zero => intro st; exact ⟨rfl, Nat.le_refl _, rfl⟩
  | succ fuel ih =>
    intro st
    unfold attemptLoop
    dsimp only
    rcases hor : oracle st.calls text with e | r
    · dsimp only
      rcases ih { st with calls := st.calls + 1 } with ⟨h1, h2, h3⟩
      refine ⟨h1, ?_, h3⟩
      dsimp only at h2
      omega
    · dsimp only
      have hr := hfail st.calls r hor
      have hcond : ¬ (r ≠ [] ∧ r ≠ text) := by
        rcases hr with hr | hr <;> simp [hr]
      rw [if_neg hcond]
      rcases ih { st with calls := st.calls + 1 } with ⟨h1, h2, h3⟩
      refine ⟨h1, ?_, h3⟩
      dsimp only at h2
      omega

/-- **C6.** If every live provider attempt on `text` either raises or returns
an empty/unchanged result, then `translate_text_single`
(`build.py:328-374`) makes at most `maxRetries` live attempts, never lets an
exception escape (the embedding is a total function returning a value in every
case), returns the original input text as the degraded result — and caches
nothing. -/
theorem c6_retries_degrade_to_input (oracle : Oracle) (cfg : TransConfig)
    (target text : PyStr) (st : TransState)
    (hfail : ∀ n r, oracle n text = Except.ok r → r = [] ∨ r = text)
    (hmiss : alistLookup st.cache (text, target) = none) :
    (translate_text_single oracle cfg target text true st).1 = text ∧
    (translate_text_single oracle cfg target text true st).2.calls ≤
      st.calls + cfg.maxRetries ∧
    (translate_text_single oracle cfg target text true st).2.cache = st.cache := by
  unfold translate_text_single
  split
  · exact ⟨rfl, Nat.le_add_right _ _, rfl⟩
  · simp only [if_pos rfl]
    dsimp only [cacheGetL]
    rw [hmiss]
    dsimp only [truthy]
    exact attemptLoop_fail oracle target text true hfail cfg.maxRetries _

theorem c6_retries_degrade_to_input_witness :
    (translate_text_single (fun _ _ => Except.error ()) defaultConfig
      "en".toList "abc".toList true initState).1 = "abc".toList ∧
    (translate_text_single (fun _ _ => Except.error ()) defaultConfig
      "en".toList "abc".toList true initState).2.calls ≤ initState.calls + 5 ∧
    (translate_text_single (fun _ _ => Except.error ()) defaultConfig
      "en".toList "abc".toList true initState).2.cache = initState.cache :=
  c6_retries_degrade_to_input (fun _ _ => Except.error ()) defaultConfig
    "en".toList "abc".toList initState
    (fun n r h => by cases h) rfl

/-! ## Shape of whitespace-normalized text

`normalizeWs` produces a string with non-whitespace ends and no two adjacent
whitespace characters; these facts drive both the chunk-reconstruction proof
(C1) and the cache proofs (C3, C4). -/

theorem splitWsGo_good :
    ∀ (l acc : PyStr), (∀ c ∈ acc, c.isWhitespace = false) →
      goodWords (splitWsGo l acc) := by
  intro l
  induction l with
  | nil =>
    intro acc hacc
    unfold splitWsGo
    split
    · intro w hw; simp at hw
    · intro w hw
      simp only [List.mem_singleton] at hw
      subst hw
      refine ⟨?_, ?_⟩
      · simp only [ne_eq, List.reverse_eq_nil_iff]
        assumption
      · intro c hc
        exact hacc c (List.mem_reverse.mp hc)
  | cons c rest ih =>
    intro acc hacc
    unfold splitWsGo
    by_cases hws : c.isWhitespace = true
    · rw [if_pos hws]
      by_cases hacc0 : acc = []
      · rw [if_pos hacc0]
        exact ih [] (by simp)
      · rw [if_neg hacc0]
        intro w hw
        rcases List.mem_cons.mp hw with hw | hw
        · subst hw
          exact ⟨by simpa [List.reverse_eq_nil_iff] using hacc0,
            fun d hd => hacc d (List.mem_reverse.mp hd)⟩
        · exact ih [] (by simp) w hw
    · rw [if_neg hws]
      refine ih (c :: acc) ?_
      intro d hd
      rcases List.mem_cons.mp hd with hd | hd
      · subst hd; exact Bool.eq_false_iff.mpr hws
      · exact hacc d hd

theorem goodWords_pySplitWs (l : PyStr) : goodWords (pySplitWs l) :=
  splitWsGo_good l [] (by simp)

theorem noWsPair_of_all (l : PyStr) (h : ∀ c ∈ l, c.isWhitespace = false) :
    NoWsPair l := by
  induction l with
  | nil => simp [NoWsPair]
  | cons c rest ih =>
    refine List.chain'_cons'.mpr ⟨?_, ih (fun d hd => h d (List.mem_cons_of_mem c hd))⟩
    intro y _
    exact Or.inl (h c (List.mem_cons_self c rest))

theorem wellSpaced_word (w : PyStr) (hw : ∀ c ∈ w, c.isWhitespace = false) :
    WellSpaced w :=
  ⟨fun h hh => hw h (List.mem_of_mem_head? hh),
   fun h hh => hw h (List.mem_of_mem_getLast? hh),
   noWsPair_of_all w hw⟩

theorem intercalate_space_ne_nil :
    ∀ ws : List PyStr, goodWords ws → ws ≠ [] →
      List.intercalate [' '] ws ≠ [] := by
  intro ws hg hne
  cases ws with
  | nil => exact absurd rfl hne
  | cons w rest =>
    cases rest with
    | nil =>
      simpa [List.intercalate] using (hg w (List.mem_cons_self w [])).1
    | cons w2 rest2 =>
      rw [intercalate_cons_of_ne_nil _ _ _ (List.cons_ne_nil w2 rest2)]
      rcases hw : w with _ | ⟨c, w'⟩
      · simp
      · simp

theorem wellSpaced_intercalate :
    ∀ ws : List PyStr, goodWords ws → WellSpaced (List.intercalate [' '] ws) := by
  intro ws
  induction ws with
  | nil =>
    intro _
    exact ⟨fun h hh => by simp [List.intercalate] at hh,
      fun h hh => by simp [List.intercalate] at hh,
      by simp [NoWsPair, List.intercalate]⟩
  | cons w rest ih =>
    intro hg
    have hw := hg w (List.mem_cons_self w rest)
    have hgrest : goodWords rest := fun x hx => hg x (List.mem_cons_of_mem w hx)
    cases rest with
    | nil =>
      simpa [List.intercalate] using wellSpaced_word w hw.2
    | cons w2 rest2 =>
      rw [intercalate_cons_of_ne_nil _ _ _ (List.cons_ne_nil w2 rest2)]
      have ht := ih hgrest
      have htne : List.intercalate [' '] (w2 :: rest2) ≠ [] :=
        intercalate_space_ne_nil _ hgrest (List.cons_ne_nil w2 rest2)
      set t := List.intercalate [' '] (w2 :: rest2) with hts
      have hassoc : w ++ [' '] ++ t = w ++ (' ' :: t) := by
        rw [List.append_assoc]; rfl
      rw [hassoc]
      refine ⟨?_, ?_, ?_⟩
      · rcases hwc : w with _ | ⟨c, w'⟩
        · exact absurd hwc hw.1
        · subst hwc
          intro x hx
          simp only [List.cons_append, List.head?_cons, Option.mem_def,
            Option.some.injEq] at hx
          subst hx
          exact hw.2 c (List.mem_cons_self c w')
      · intro x hx
        rw [List.getLast?_append_of_ne_nil w (by simp)] at hx
        rw [show (' ' :: t) = [' '] ++ t from rfl] at hx
        rw [List.getLast?_append_of_ne_nil [' '] htne] at hx
        exact ht.2.1 x hx
      · refine List.chain'_append.mpr ⟨noWsPair_of_all w hw.2, ?_, ?_⟩
        · refine List.chain'_cons'.mpr ⟨?_, ht.2.2⟩
          intro y hy
          exact Or.inr (ht.1 y hy)
        · intro x hx y hy
          exact Or.inl (hw.2 x (List.mem_of_mem_getLast? hx))

theorem wellSpaced_normalizeWs (t : PyStr) : WellSpaced (normalizeWs t) :=
  wellSpaced_intercalate _ (goodWords_pySplitWs t)

theorem dropWhile_headOk (l : PyStr) (h : HeadOk l) :
    l.dropWhile Char.isWhitespace = l := by
  cases l with
  | nil => rfl
  | cons c rest =>
    have hc : c.isWhitespace = false := h c rfl
    simp [List.dropWhile, hc]

theorem pyStrip_wellSpaced (l : PyStr) (h : WellSpaced l) : pyStrip l = l := by
  unfold pyStrip
  rw [dropWhile_headOk l h.1]
  have hrev : HeadOk l.reverse := by
    intro c hc
    rw [List.head?_reverse] at hc
    exact h.2.1 c hc
  rw [dropWhile_headOk l.reverse hrev, List.reverse_reverse]

theorem splitWsGo_eq_nil :
    ∀ (l acc : PyStr), splitWsGo l acc = [] →
      acc = [] ∧ ∀ c ∈ l, c.isWhitespace = true := by
  intro l
  induction l with
  | nil =>
    intro acc h
    unfold splitWsGo at h
    by_cases hacc : acc = []
    · exact ⟨hacc, by simp⟩
    · rw [if_neg hacc] at h; simp at h
  | cons c rest ih =>
    intro acc h
    unfold splitWsGo at h
    by_cases hws : c.isWhitespace = true
    · rw [if_pos hws] at h
      by_cases hacc : acc = []
      · rw [if_pos hacc] at h
        rcases ih [] h with ⟨_, hrest⟩
        refine ⟨hacc, ?_⟩
        intro d hd
        rcases List.mem_cons.mp hd with hd | hd
        · subst hd; exact hws
        · exact hrest d hd
      · rw [if_neg hacc] at h; simp at h
    · rw [if_neg hws] at h
      rcases ih (c :: acc) h with ⟨habs, _⟩
      simp at habs

theorem pyStrip_of_all_ws (l : PyStr) (h : ∀ c ∈ l, c.isWhitespace = true) :
    pyStrip l = [] := by
  unfold pyStrip
  have h1 : l.dropWhile Char.isWhitespace = [] := List.dropWhile_eq_nil_iff.mpr h
  rw [h1]
  rfl

theorem pySplitWs_ne_of_strip (t : PyStr) (h : pyStrip t ≠ []) : pySplitWs t ≠ [] := by
  intro h0
  exact h (pyStrip_of_all_ws t (splitWsGo_eq_nil t [] h0).2)

theorem normalizeWs_ne_of_strip (t : PyStr) (h : pyStrip t ≠ []) :
    normalizeWs t ≠ [] :=
  intercalate_space_ne_nil _ (goodWords_pySplitWs t) (pySplitWs_ne_of_strip t h)

/-! ## The `". "` pieces of a normalized text start with non-whitespace -/

theorem splitDot_headOk :
    ∀ (l acc : PyStr), NoWsPair l → HeadOk (acc.reverse ++ l) →
      ∀ p ∈ splitDot l acc, HeadOk p := by
  intro l acc
  induction l, acc using splitDot.induct with
  | case1 acc =>
    intro hch hhd p hp
    simp only [splitDot, List.mem_singleton] at hp
    subst hp
    simpa using hhd
  | case2 c acc =>
    intro hch hhd p hp
    simp only [splitDot, List.mem_singleton] at hp
    subst hp
    rw [List.reverse_cons]
    exact hhd
  | case3 c1 c2 rest acc h ih =>
    obtain ⟨hh1, hh2⟩ := h
    subst hh1 hh2
    intro hch hhd p hp
    rw [splitDot, if_pos ⟨rfl, rfl⟩] at hp
    rcases List.mem_cons.mp hp with hp | hp
    · subst hp
      rcases hacc : acc.reverse with _ | ⟨c, w⟩
      · intro x hx; simp at hx
      · intro x hx
        rw [hacc] at hhd
        simp only [List.cons_append, List.head?_cons, Option.mem_def,
          Option.some.injEq] at hx
        subst hx
        exact hhd c rfl
    · have hch2 : List.Chain'
          (fun a b => a.isWhitespace = false ∨ b.isWhitespace = false)
          (' ' :: rest) := (List.chain'_cons.mp hch).2
      have hrest : NoWsPair rest := (List.chain'_cons'.mp hch2).2
      have hhead : HeadOk rest := by
        intro x hx
        rcases (List.chain'_cons'.mp hch2).1 x hx with hx2 | hx2
        · simp at hx2
        · exact hx2
      exact ih hrest (by simpa using hhead) p hp
  | case4 c1 c2 rest acc h ih =>
    intro hch hhd p hp
    rw [splitDot, if_neg h] at hp
    refine ih hch.tail ?_ p hp
    rw [List.reverse_cons, List.append_assoc]
    exact hhd

/-! ## C1: chunk splitting and rejoining -/

theorem pyStrip_dot_space (u : PyStr) (h : HeadOk (u ++ ['.', ' '])) :
    pyStrip (u ++ ['.', ' ']) = u ++ ['.'] := by
  unfold pyStrip
  rw [dropWhile_headOk _ h]
  have hrev : (u ++ ['.', ' ']).reverse = ' ' :: '.' :: u.reverse := by simp
  rw [hrev]
  rw [show List.dropWhile Char.isWhitespace (' ' :: '.' :: u.reverse) =
      '.' :: u.reverse by simp [List.dropWhile]]
  simp

theorem headOk_swd (s : PyStr) (h : HeadOk s) : HeadOk (s ++ ['.', ' ']) := by
  cases s with
  | nil =>
    intro x hx
    simp only [List.nil_append, List.head?_cons, Option.mem_def,
      Option.some.injEq] at hx
    subst hx
    decide
  | cons c rest =>
    intro x hx
    simp only [List.cons_append, List.head?_cons, Option.mem_def,
      Option.some.injEq] at hx
    subst hx
    exact h _ rfl

theorem headOk_append_left (l l2 : PyStr) (hne : l ≠ []) (h : HeadOk l) :
    HeadOk (l ++ l2) := by
  cases l with
  | nil => exact absurd rfl hne
  | cons c rest =>
    intro x hx
    simp only [List.cons_append, List.head?_cons, Option.mem_def,
      Option.some.injEq] at hx
    subst hx
    exact h _ rfl

theorem sentenceStep_reconstruct (maxLen : Nat) (st : ChunkSt) (s : PyStr)
    (hlen : s.length ≤ maxLen) (hhd : HeadOk s) (hsc : chunkSC st) :
    chunkSC (sentenceStep maxLen st s) ∧
      chunkJ (sentenceStep maxLen st s) = chunkJ st ++ (s ++ ['.', ' ']) := by
  unfold sentenceStep
  dsimp only
  by_cases hov : st.current.length + (s ++ ['.', ' ']).length > maxLen
  · rw [if_pos hov]
    have hsl : ¬ s.length > maxLen := by omega
    rw [if_neg hsl]
    by_cases hcur : st.current ≠ []
    · rw [if_pos hcur]
      rcases hsc with hsc | ⟨hchd, u, hu⟩
      · exact absurd hsc hcur
      · have hstrip : pyStrip st.current = u ++ ['.'] := by
          rw [hu]; exact pyStrip_dot_space u (hu ▸ hchd)
        constructor
        · exact Or.inr ⟨headOk_swd s hhd, s, rfl⟩
        · show ((st.chunks ++ [pyStrip st.current]).map
              (fun c => c ++ [' '])).flatten ++ (s ++ ['.', ' ']) = _
          rw [hstrip]
          unfold chunkJ
          rw [List.map_append, List.flatten_append]
          simp only [List.map_cons, List.map_nil, List.flatten_cons,
            List.flatten_nil, List.append_nil]
          rw [hu]
          simp [List.append_assoc]
    · rw [if_neg hcur]
      have hcur2 : st.current = [] := not_not.mp hcur
      constructor
      · exact Or.inr ⟨headOk_swd s hhd, s, rfl⟩
      · unfold chunkJ
        rw [hcur2]
        simp
  · rw [if_neg hov]
    constructor
    · rcases hsc with hsc | ⟨hchd, u, hu⟩
      · refine Or.inr ⟨?_, st.current ++ s, by rw [hsc]; simp⟩
        rw [hsc, List.nil_append]
        exact headOk_swd s hhd
      · refine Or.inr ⟨?_, st.current ++ s, by simp⟩
        refine headOk_append_left _ _ ?_ hchd
        rw [hu]; simp
    · unfold chunkJ
      simp [List.append_assoc]

theorem foldl_sentenceStep_reconstruct (maxLen : Nat) :
    ∀ (ss : List PyStr) (st : ChunkSt),
      (∀ s ∈ ss, s.length ≤ maxLen ∧ HeadOk s) → chunkSC st →
      chunkSC (ss.foldl (sentenceStep maxLen) st) ∧
        chunkJ (ss.foldl (sentenceStep maxLen) st) = chunkJ st ++ dcat ss := by
  intro ss
  induction ss with
  | nil =>
    intro st _ hsc
    exact ⟨hsc, by simp [dcat]⟩
  | cons s rest ih =>
    intro st hss hsc
    have hs := hss s (List.mem_cons_self s rest)
    obtain ⟨hsc2, hJ⟩ := sentenceStep_reconstruct maxLen st s hs.1 hs.2 hsc
    obtain ⟨hsc3, hJ2⟩ := ih (sentenceStep maxLen st s)
      (fun x hx => hss x (List.mem_cons_of_mem s hx)) hsc2
    rw [List.foldl_cons]
    refine ⟨hsc3, ?_⟩
    rw [hJ2, hJ]
    simp [dcat, List.append_assoc]

theorem dcat_eq_intercalate :
    ∀ ss : List PyStr, ss ≠ [] →
      dcat ss = List.intercalate ['.', ' '] ss ++ ['.', ' '] := by
  intro ss
  induction ss with
  | nil => intro h; exact absurd rfl h
  | cons w rest ih =>
    intro _
    cases rest with
    | nil => simp [dcat, List.intercalate]
    | cons w2 r2 =>
      rw [intercalate_cons_of_ne_nil _ _ _ (List.cons_ne_nil w2 r2)]
      have hd : dcat (w :: w2 :: r2) = (w ++ ['.', ' ']) ++ dcat (w2 :: r2) := by
        simp [dcat]
      rw [hd, ih (List.cons_ne_nil w2 r2)]
      simp [List.append_assoc]

theorem dcat_ne_nil (ss : List PyStr) (h : ss ≠ []) : dcat ss ≠ [] := by
  cases ss with
  | nil => exact absurd rfl h
  | cons w rest => simp [dcat]

theorem flatten_space_intercalate :
    ∀ F : List PyStr, F ≠ [] →
      (F.map (fun c => c ++ [' '])).flatten = List.intercalate [' '] F ++ [' '] := by
  intro F
  induction F with
  | nil => intro h; exact absurd rfl h
  | cons w rest ih =>
    intro _
    cases rest with
    | nil => simp [List.intercalate]
    | cons w2 r2 =>
      rw [intercalate_cons_of_ne_nil _ _ _ (List.cons_ne_nil w2 r2),
        List.map_cons, List.flatten_cons, ih (List.cons_ne_nil w2 r2)]
      simp [List.append_assoc]

/-- **C1 (amended).** For a text whose normalization exceeds the chunk
threshold and whose `". "`-delimited sentences each fit in a chunk, splitting
into chunks and rejoining with the identity transform reconstructs the
whitespace-normalized input *with one extra `'.'` appended at the end* — the
sentence loop re-appends `". "` to every sentence, including the last one
(`build.py:280`), so the rejoined text is not the normalized input itself. -/
theorem c1_split_join_amended (maxLen : Nat) (t : PyStr)
    (hlong : (normalizeWs t).length > maxLen)
    (hsent : ∀ s ∈ pySplitDot (normalizeWs t), s.length ≤ maxLen) :
    joinChunks (splitChunks maxLen (normalizeWs t)) = normalizeWs t ++ ['.'] := by
  have hws := wellSpaced_normalizeWs t
  have hpieces : ∀ p ∈ pySplitDot (normalizeWs t), HeadOk p :=
    splitDot_headOk (normalizeWs t) [] hws.2.2 (by simpa using hws.1)
  unfold splitChunks joinChunks
  dsimp only
  set tc := normalizeWs t with htc
  set sentences := pySplitDot tc with hsents
  obtain ⟨hsc, hJ⟩ := foldl_sentenceStep_reconstruct maxLen sentences ⟨[], []⟩
    (fun s hs => ⟨hsent s hs, hpieces s hs⟩) (Or.inl rfl)
  set st := sentences.foldl (sentenceStep maxLen) ⟨[], []⟩ with hst
  have hJ2 : chunkJ st = dcat sentences := by
    rw [hJ]; simp [chunkJ]
  have hsne : sentences ≠ [] := splitDot_ne_nil tc []
  set F := if st.current ≠ [] then st.chunks ++ [pyStrip st.current]
    else st.chunks with hF
  have hflat : (F.map (fun c => c ++ [' '])).flatten = dcat sentences := by
    rw [hF]
    by_cases hcur : st.current ≠ []
    · rw [if_pos hcur]
      rcases hsc with hsc | ⟨hchd, u, hu⟩
      · exact absurd hsc hcur
      · rw [List.map_append, List.flatten_append]
        simp only [List.map_cons, List.map_nil, List.flatten_cons,
          List.flatten_nil, List.append_nil]
        rw [show pyStrip st.current = u ++ ['.'] by
          rw [hu]; exact pyStrip_dot_space u (hu ▸ hchd)]
        rw [← hJ2]
        unfold chunkJ
        rw [hu]
        simp [List.append_assoc]
    · rw [if_neg hcur]
      rw [← hJ2]
      unfold chunkJ
      rw [not_not.mp hcur]
      simp
  have hFne : F ≠ [] := by
    intro h0
    rw [h0] at hflat
    exact dcat_ne_nil sentences hsne (by simpa using hflat.symm)
  rw [if_neg hFne]
  have h1 : List.intercalate [' '] F ++ [' '] = dcat sentences := by
    rw [← flatten_space_intercalate F hFne]; exact hflat
  have h2 : dcat sentences = (tc ++ ['.']) ++ [' '] := by
    rw [dcat_eq_intercalate sentences hsne, hsents]
    unfold pySplitDot
    rw [intercalate_splitDot tc []]
    simp
  rw [h2] at h1
  exact List.append_cancel_right h1

theorem c1_split_join_amended_witness :
    joinChunks (splitChunks 10 (normalizeWs "ab. cd. ef. gh".toList)) =
      normalizeWs "ab. cd. ef. gh".toList ++ ['.'] :=
  c1_split_join_amended 10 "ab. cd. ef. gh".toList (by decide) (by decide)

/-- **C1 (counterexample).** The claim as stated — rejoining the identity-
transformed chunks reconstructs the whitespace-normalized input unchanged —
fails: for the text `"ab. cd. ef. gh"` and chunk threshold 10 the rejoined
text carries an extra trailing period. -/
theorem c1_split_join_counterexample :
    (normalizeWs "ab. cd. ef. gh".toList).length > 10 ∧
    joinChunks (splitChunks 10 (normalizeWs "ab. cd. ef. gh".toList)) ≠
      normalizeWs "ab. cd. ef. gh".toList := by decide

/-! ## Cache behaviour of `translate_text` (C3, C4) -/

theorem truthy_some_ne (o : Option PyStr) (c : PyStr) (h : truthy o = some c) :
    c ≠ [] := by
  rcases o with _ | v
  · simp [truthy] at h
  · by_cases hv : v = []
    · simp [truthy, hv] at h
    · simp only [truthy, if_neg hv, Option.some.injEq] at h
      subst h
      exact hv

theorem translate_single_hit (oracle : Oracle) (cfg : TransConfig)
    (target text : PyStr) (st : TransState) (v : PyStr)
    (hv : alistLookup st.cache (text, target) = some v) (hvne : v ≠ [])
    (hstrip : pyStrip text ≠ []) :
    translate_text_single oracle cfg target text true st =
      (v, { st with lookups := st.lookups ++ [(text, target)] }) := by
  unfold translate_text_single
  rw [if_neg hstrip]
  dsimp only [cacheGetL]
  rw [hv]
  dsimp only [truthy]
  rw [if_neg hvne]
  rfl

theorem translate_single_fresh (f : PyStr → PyStr) (cfg : TransConfig)
    (target text : PyStr) (st : TransState)
    (hmiss : alistLookup st.cache (text, target) = none)
    (hstrip : pyStrip text ≠ []) (hfe : f text ≠ []) (hft : f text ≠ text)
    (hret : 0 < cfg.maxRetries) :
    translate_text_single (pureOracle f) cfg target text true st =
      (f text,
       { st with
         cache := ((text, target), f text) :: st.cache,
         calls := st.calls + 1,
         lookups := st.lookups ++ [(text, target)] }) := by
  unfold translate_text_single
  rw [if_neg hstrip]
  dsimp only [cacheGetL]
  rw [hmiss]
  dsimp only [truthy]
  obtain ⟨k, hk⟩ : ∃ k, cfg.maxRetries = k + 1 :=
    ⟨cfg.maxRetries - 1, by omega⟩
  rw [hk]
  unfold attemptLoop
  dsimp only [pureOracle]
  rw [if_pos (show f text ≠ [] ∧ f text ≠ text from ⟨hfe, hft⟩)]
  rfl

theorem attemptLoop_result_ne (oracle : Oracle) (target text : PyStr)
    (u : Bool) (htext : text ≠ []) :
    ∀ (fuel : Nat) (st : TransState),
      (attemptLoop oracle target text u fuel st).1 ≠ [] := by
  intro fuel
  induction fuel with
  | zero => intro st; exact htext
  | succ fuel ih =>
    intro st
    unfold attemptLoop
    dsimp only
    rcases hor : oracle st.calls text with e | r
    · exact ih _
    · dsimp only
      by_cases hcond : r ≠ [] ∧ r ≠ text
      · rw [if_pos hcond]; exact hcond.1
      · rw [if_neg hcond]; exact ih _

theorem translate_single_ne (oracle : Oracle) (cfg : TransConfig)
    (target text : PyStr) (u : Bool) (st : TransState) (htext : text ≠ []) :
    (translate_text_single oracle cfg target text u st).1 ≠ [] := by
  unfold translate_text_single
  split
  · exact htext
  · split
    · rcases ht : truthy (cacheGetL st text target).1 with _ | c
      · dsimp only
        rw [ht]
        exact attemptLoop_result_ne oracle target text u htext _ _
      · dsimp only
        rw [ht]
        exact truthy_some_ne _ c ht
    · exact attemptLoop_result_ne oracle target text u htext _ _

/-! ## All produced chunks are nonempty -/

theorem hasInk_ne_nil (l : PyStr) (h : HasInk l) : l ≠ [] := by
  rcases h with ⟨c, hc, _⟩
  intro h0
  rw [h0] at hc
  simp at hc

theorem hasInk_dropWhile (l : PyStr) (h : HasInk l) :
    HasInk (l.dropWhile Char.isWhitespace) := by
  induction l with
  | nil => simpa using h
  | cons c rest ih =>
    rcases h with ⟨d, hd, hdw⟩
    by_cases hc : c.isWhitespace = true
    · rw [List.dropWhile_cons_of_pos hc]
      refine ih ⟨d, ?_, hdw⟩
      rcases List.mem_cons.mp hd with hd | hd
      · subst hd; rw [hc] at hdw; simp at hdw
      · exact hd
    · rw [List.dropWhile_cons_of_neg hc]
      exact ⟨d, hd, hdw⟩

theorem hasInk_reverse (l : PyStr) (h : HasInk l) : HasInk l.reverse := by
  rcases h with ⟨c, hc, hcw⟩
  exact ⟨c, List.mem_reverse.mpr hc, hcw⟩

theorem hasInk_strip_ne (l : PyStr) (h : HasInk l) : pyStrip l ≠ [] := by
  unfold pyStrip
  intro h0
  have h1 := hasInk_dropWhile _ (hasInk_reverse _ (hasInk_dropWhile l h))
  rw [show ((l.dropWhile Char.isWhitespace).reverse.dropWhile Char.isWhitespace)
      = [] by simpa using h0] at h1
  exact hasInk_ne_nil _ h1 rfl

theorem wordFold_ok (maxLen : Nat) :
    ∀ (words : List PyStr), goodWords words →
      ∀ (chunks0 : List PyStr) (wc0 : PyStr),
        (∀ c ∈ chunks0, c ≠ []) → (wc0 = [] ∨ HasInk wc0) →
        (∀ c ∈ (words.foldl (wordStep maxLen) (chunks0, wc0)).1, c ≠ []) ∧
          ((words.foldl (wordStep maxLen) (chunks0, wc0)).2 = [] ∨
            HasInk (words.foldl (wordStep maxLen) (chunks0, wc0)).2) := by
  intro words
  induction words with
  | nil =>
    intro _ chunks0 wc0 hc hw
    exact ⟨hc, hw⟩
  | cons w rest ih =>
    intro hg chunks0 wc0 hc hw
    have hwword := hg w (List.mem_cons_self w rest)
    have hgrest : goodWords rest := fun x hx => hg x (List.mem_cons_of_mem w hx)
    rw [List.foldl_cons]
    have hinkw : HasInk (w ++ [' ']) := by
      rcases hwd : w with _ | ⟨c, w'⟩
      · exact absurd hwd hwword.1
      · exact ⟨c, by simp, hwword.2 c (by rw [hwd]; exact List.mem_cons_self c w')⟩
    unfold wordStep
    by_cases hov : wc0.length + w.length + 1 > maxLen
    · rw [if_pos hov]
      refine ih hgrest _ _ ?_ (Or.inr hinkw)
      dsimp only
      by_cases hwc0 : wc0 ≠ []
      · rw [if_pos hwc0]
        intro c hcm
        rcases List.mem_append.mp hcm with hcm | hcm
        · exact hc c hcm
        · rw [List.mem_singleton.mp hcm]
          rcases hw with hw | hw
          · exact absurd hw hwc0
          · exact hasInk_strip_ne wc0 hw
      · rw [if_neg hwc0]
        exact hc
    · rw [if_neg hov]
      refine ih hgrest _ _ hc (Or.inr ?_)
      rcases hinkw with ⟨c, hcm, hcw⟩
      exact ⟨c, by simp only [List.append_assoc]; exact
        List.mem_append_right wc0 hcm, hcw⟩

theorem sentenceStep_ok (maxLen : Nat) (st : ChunkSt) (s : PyStr)
    (h : chunkOk st) : chunkOk (sentenceStep maxLen st s) := by
  unfold sentenceStep
  dsimp only
  have hink : HasInk (s ++ ['.', ' ']) :=
    ⟨'.', by simp, by decide⟩
  by_cases hov : st.current.length + (s ++ ['.', ' ']).length > maxLen
  · rw [if_pos hov]
    have hchunks : ∀ c ∈ (if st.current ≠ [] then
        st.chunks ++ [pyStrip st.current] else st.chunks), c ≠ [] := by
      by_cases hcur : st.current ≠ []
      · rw [if_pos hcur]
        intro c hcm
        rcases List.mem_append.mp hcm with hcm | hcm
        · exact h.1 c hcm
        · rw [List.mem_singleton.mp hcm]
          rcases h.2 with h2 | h2
          · exact absurd h2 hcur
          · exact hasInk_strip_ne _ h2
      · rw [if_neg hcur]
        exact h.1
    by_cases hsl : s.length > maxLen
    · rw [if_pos hsl]
      obtain ⟨hres1, hres2⟩ := wordFold_ok maxLen (pySplitWs s)
        (goodWords_pySplitWs s) _ [] hchunks (Or.inl rfl)
      refine ⟨hres1, ?_⟩
      dsimp only
      by_cases hres : ((pySplitWs s).foldl (wordStep maxLen)
          ((if st.current ≠ [] then st.chunks ++ [pyStrip st.current]
            else st.chunks), [])).2 ≠ []
      · rw [if_pos hres]
        rcases hres2 with h2 | h2
        · exact absurd h2 hres
        · exact Or.inr h2
      · rw [if_neg hres]
        exact h.2
    · rw [if_neg hsl]
      exact ⟨hchunks, Or.inr hink⟩
  · rw [if_neg hov]
    refine ⟨h.1, Or.inr ?_⟩
    rcases hink with ⟨c, hcm, hcw⟩
    exact ⟨c, List.mem_append_right st.current hcm, hcw⟩

theorem foldl_sentenceStep_ok (maxLen : Nat) :
    ∀ (ss : List PyStr) (st : ChunkSt), chunkOk st →
      chunkOk (ss.foldl (sentenceStep maxLen) st) := by
  intro ss
  induction ss with
  | nil => intro st h; exact h
  | cons s rest ih =>
    intro st h
    rw [List.foldl_cons]
    exact ih _ (sentenceStep_ok maxLen st s h)

theorem chunkEveryGo_mem_ne (n : Nat) (hn : 0 < n) :
    ∀ (fuel : Nat) (l : PyStr), ∀ c ∈ chunkEveryGo n fuel l, c ≠ [] := by
  intro fuel
  induction fuel with
  | zero => intro l c hc; simp [chunkEveryGo] at hc
  | succ fuel ih =>
    intro l c hc
    cases l with
    | nil => simp [chunkEveryGo] at hc
    | cons x xs =>
      rcases List.mem_cons.mp hc with hc | hc
      · subst hc
        obtain ⟨m, hm⟩ : ∃ m, n = m + 1 := ⟨n - 1, by omega⟩
        rw [hm]
        simp [List.take]
      · exact ih _ c hc

theorem chunkEvery_ne_nil (n : Nat) (l : PyStr) (hl : l ≠ []) :
    chunkEvery n l ≠ [] := by
  unfold chunkEvery
  cases l with
  | nil => exact absurd rfl hl
  | cons x xs => simp [chunkEveryGo]

theorem splitChunks_ok (maxLen : Nat) (hmax : 0 < maxLen) (tc : PyStr)
    (htc : tc ≠ []) :
    splitChunks maxLen tc ≠ [] ∧ ∀ c ∈ splitChunks maxLen tc, c ≠ [] := by
  unfold splitChunks
  dsimp only
  have hok := foldl_sentenceStep_ok maxLen (pySplitDot tc) ⟨[], []⟩
    ⟨by simp, Or.inl rfl⟩
  set st := (pySplitDot tc).foldl (sentenceStep maxLen) ⟨[], []⟩ with hst
  have hFel : ∀ c ∈ (if st.current ≠ [] then st.chunks ++ [pyStrip st.current]
      else st.chunks), c ≠ [] := by
    by_cases hcur : st.current ≠ []
    · rw [if_pos hcur]
      intro c hcm
      rcases List.mem_append.mp hcm with hcm | hcm
      · exact hok.1 c hcm
      · rw [List.mem_singleton.mp hcm]
        rcases hok.2 with h2 | h2
        · exact absurd h2 hcur
        · exact hasInk_strip_ne _ h2
    · rw [if_neg hcur]
      exact hok.1
  by_cases hF : (if st.current ≠ [] then st.chunks ++ [pyStrip st.current]
      else st.chunks) = []
  · rw [if_pos hF]
    refine ⟨chunkEvery_ne_nil maxLen tc htc, ?_⟩
    intro c hc
    exact chunkEveryGo_mem_ne maxLen hmax tc.length tc c hc
  · rw [if_neg hF]
    exact ⟨hF, hFel⟩

/-! ## Chunk translation results are nonempty -/

theorem translateChunks_mem_ne (oracle : Oracle) (cfg : TransConfig)
    (target : PyStr) (u : Bool) :
    ∀ (cs : List PyStr) (st : TransState), (∀ c ∈ cs, c ≠ []) →
      ∀ r ∈ (translateChunks oracle cfg target u cs st).1, r ≠ [] := by
  intro cs
  induction cs with
  | nil => intro st _ r hr; simp [translateChunks] at hr
  | cons c cs ih =>
    intro st hcs r hr
    unfold translateChunks at hr
    dsimp only at hr
    rcases List.mem_cons.mp hr with hr | hr
    · subst hr
      exact translate_single_ne oracle cfg target c u st
        (hcs c (List.mem_cons_self c cs))
    · exact ih _ (fun x hx => hcs x (List.mem_cons_of_mem c hx)) r hr

theorem translateChunks_ne_nil (oracle : Oracle) (cfg : TransConfig)
    (target : PyStr) (u : Bool) (cs : List PyStr) (st : TransState)
    (hcs : cs ≠ []) :
    (translateChunks oracle cfg target u cs st).1 ≠ [] := by
  cases cs with
  | nil => exact absurd rfl hcs
  | cons c cs => simp [translateChunks]

theorem joinChunks_ne_nil (rs : List PyStr) (hne : rs ≠ [])
    (helem : ∀ r ∈ rs, r ≠ []) : joinChunks rs ≠ [] := by
  cases rs with
  | nil => exact absurd rfl hne
  | cons a rest =>
    cases rest with
    | nil =>
      simpa [joinChunks, List.intercalate] using
        helem a (List.mem_cons_self a [])
    | cons b r2 =>
      unfold joinChunks
      rw [intercalate_cons_of_ne_nil _ _ _ (List.cons_ne_nil b r2)]
      simp

/-! ## End-to-end behaviour of `translate_text` on fresh and warm caches -/

theorem translate_hit_full (oracle : Oracle) (cfg : TransConfig)
    (target t : PyStr) (st : TransState) (v : PyStr)
    (hstrip : pyStrip t ≠ [])
    (hv : alistLookup st.cache (t, target) = some v) (hvne : v ≠ []) :
    translate_text oracle cfg target t true st =
      (v, { st with lookups := st.lookups ++ [(t, target)] }) := by
  unfold translate_text
  rw [if_neg hstrip]
  simp only [↓reduceIte]
  dsimp only [cacheGetL]
  rw [hv]
  dsimp only [truthy]
  rw [if_neg hvne]

theorem translate_short_fresh (f : PyStr → PyStr) (cfg : TransConfig)
    (target t : PyStr)
    (hf : ∀ s, f s ≠ [] ∧ f s ≠ s) (hstrip : pyStrip t ≠ [])
    (hshort : (normalizeWs t).length ≤ cfg.maxChunkLength)
    (hret : 0 < cfg.maxRetries) :
    translate_text (pureOracle f) cfg target t true initState =
      (f (normalizeWs t),
       { cache := [((normalizeWs t, target), f (normalizeWs t))],
         calls := 1,
         lookups := [(t, target), (normalizeWs t, target)] }) := by
  have hws := wellSpaced_normalizeWs t
  have htcne := normalizeWs_ne_of_strip t hstrip
  have hstrip2 : pyStrip (normalizeWs t) ≠ [] := by
    rw [pyStrip_wellSpaced _ hws]; exact htcne
  unfold translate_text
  rw [if_neg hstrip]
  simp only [↓reduceIte]
  dsimp only [cacheGetL, initState, alistLookup, truthy]
  simp only [List.nil_append]
  rw [if_neg (by omega : ¬ (normalizeWs t).length > cfg.maxChunkLength)]
  rw [translate_single_fresh f cfg target (normalizeWs t)
    ⟨[], 0, [(t, target)]⟩ rfl hstrip2 (hf _).1 (hf _).2 hret]
  rfl

theorem translate_short_second (oracle : Oracle) (cfg : TransConfig)
    (target t' tc v : PyStr) (st : TransState)
    (hstrip : pyStrip t' ≠ [])
    (hnorm : normalizeWs t' = tc)
    (hshort : tc.length ≤ cfg.maxChunkLength)
    (hcache : st.cache = [((tc, target), v)])
    (hvne : v ≠ [])
    (hwstc : pyStrip tc = tc) (htcne : tc ≠ []) :
    (translate_text oracle cfg target t' true st).1 = v ∧
    (translate_text oracle cfg target t' true st).2.calls = st.calls ∧
    (translate_text oracle cfg target t' true st).2.cache = st.cache := by
  by_cases hteq : t' = tc
  · rw [translate_hit_full oracle cfg target t' st v hstrip
      (by rw [hcache, hteq]; simp [alistLookup]) hvne]
    exact ⟨rfl, rfl, rfl⟩
  · have hmiss : alistLookup st.cache (t', target) = none := by
      rw [hcache]
      have hne : ((tc, target) : CacheKey) ≠ (t', target) := by
        intro hh
        exact hteq (congrArg Prod.fst hh).symm
      simp [alistLookup, hne]
    unfold translate_text
    rw [if_neg hstrip]
    simp only [↓reduceIte]
    dsimp only [cacheGetL]
    rw [hmiss]
    dsimp only [truthy]
    rw [hnorm]
    rw [if_neg (by omega : ¬ tc.length > cfg.maxChunkLength)]
    rw [translate_single_hit oracle cfg target tc _ v
      (by rw [hcache]; simp [alistLookup]) hvne
      (by rw [hwstc]; exact htcne)]
    exact ⟨rfl, rfl, rfl⟩

theorem translate_long_first (oracle : Oracle) (cfg : TransConfig)
    (target t : PyStr)
    (hstrip : pyStrip t ≠ [])
    (hlong : (normalizeWs t).length > cfg.maxChunkLength)
    (hmax : 0 < cfg.maxChunkLength) :
    (translate_text oracle cfg target t true initState).1 ≠ [] ∧
    alistLookup (translate_text oracle cfg target t true initState).2.cache
      (t, target) =
      some (translate_text oracle cfg target t true initState).1 := by
  have htcne : normalizeWs t ≠ [] := normalizeWs_ne_of_strip t hstrip
  obtain ⟨hchne, hchel⟩ := splitChunks_ok cfg.maxChunkLength hmax
    (normalizeWs t) htcne
  unfold translate_text
  rw [if_neg hstrip]
  simp only [↓reduceIte]
  dsimp only [cacheGetL, initState, alistLookup, truthy]
  rw [if_pos hlong]
  dsimp only
  constructor
  · exact joinChunks_ne_nil _
      (translateChunks_ne_nil oracle cfg target true _ _ hchne)
      (translateChunks_mem_ne oracle cfg target true _ _ hchel)
  · dsimp only [cachePut, alistLookup]
    rw [if_pos rfl]

/-- **C3 (amended).** With caching enabled and a fresh cache, for any input
on which the live provider succeeds (always returns a nonempty value
different from its input), the second of two identical `translate_text` calls
issues no live provider call and returns a result identical to the first; for
inputs whose normalization is at most the chunk threshold the two calls issue
exactly one live call in total, and for longer inputs the whole reassembled
result is cached under the original full-text key (so the second call is one
cache hit, with no re-chunking). -/
theorem c3_second_call_from_cache (cfg : TransConfig) (f : PyStr → PyStr)
    (target t : PyStr)
    (hf : ∀ s, f s ≠ [] ∧ f s ≠ s)
    (hstrip : pyStrip t ≠ [])
    (hret : 0 < cfg.maxRetries) (hmax : 0 < cfg.maxChunkLength) :
    (translate_text (pureOracle f) cfg target t true
        (translate_text (pureOracle f) cfg target t true initState).2).1 =
      (translate_text (pureOracle f) cfg target t true initState).1 ∧
    (translate_text (pureOracle f) cfg target t true
        (translate_text (pureOracle f) cfg target t true initState).2).2.calls =
      (translate_text (pureOracle f) cfg target t true initState).2.calls ∧
    ((normalizeWs t).length ≤ cfg.maxChunkLength →
      (translate_text (pureOracle f) cfg target t true initState).2.calls = 1) ∧
    ((normalizeWs t).length > cfg.maxChunkLength →
      alistLookup (translate_text (pureOracle f) cfg target t true initState).2.cache
        (t, target) =
        some (translate_text (pureOracle f) cfg target t true initState).1) := by
  by_cases hshort : (normalizeWs t).length ≤ cfg.maxChunkLength
  · have h1 := translate_short_fresh f cfg target t hf hstrip hshort hret
    have hws := wellSpaced_normalizeWs t
    have htcne := normalizeWs_ne_of_strip t hstrip
    rw [h1]
    obtain ⟨h2a, h2b, h2c⟩ := translate_short_second (pureOracle f) cfg target t
      (normalizeWs t) (f (normalizeWs t))
      ⟨[((normalizeWs t, target), f (normalizeWs t))], 1,
        [(t, target), (normalizeWs t, target)]⟩
      hstrip rfl hshort rfl (hf _).1 (pyStrip_wellSpaced _ hws) htcne
    refine ⟨h2a, by rw [h2b], fun _ => rfl, fun hlong => absurd hshort (by omega)⟩
  · have hlong : (normalizeWs t).length > cfg.maxChunkLength := by omega
    obtain ⟨hne, hlook⟩ := translate_long_first (pureOracle f) cfg target t
      hstrip hlong hmax
    rw [translate_hit_full (pureOracle f) cfg target t _ _ hstrip hlook hne]
    exact ⟨rfl, rfl, fun hs => absurd hs (by omega), fun _ => hlook⟩

theorem c3_second_call_from_cache_witness :
    (translate_text (pureOracle (fun s => 'X' :: s)) defaultConfig
        "en".toList "hi".toList true
        (translate_text (pureOracle (fun s => 'X' :: s)) defaultConfig
          "en".toList "hi".toList true initState).2).1 =
      (translate_text (pureOracle (fun s => 'X' :: s)) defaultConfig
        "en".toList "hi".toList true initState).1 ∧
    (translate_text (pureOracle (fun s => 'X' :: s)) defaultConfig
        "en".toList "hi".toList true
        (translate_text (pureOracle (fun s => 'X' :: s)) defaultConfig
          "en".toList "hi".toList true initState).2).2.calls =
      (translate_text (pureOracle (fun s => 'X' :: s)) defaultConfig
        "en".toList "hi".toList true initState).2.calls ∧
    ((normalizeWs "hi".toList).length ≤ defaultConfig.maxChunkLength →
      (translate_text (pureOracle (fun s => 'X' :: s)) defaultConfig
        "en".toList "hi".toList true initState).2.calls = 1) ∧
    ((normalizeWs "hi".toList).length > defaultConfig.maxChunkLength →
      alistLookup (translate_text (pureOracle (fun s => 'X' :: s)) defaultConfig
          "en".toList "hi".toList true initState).2.cache
        ("hi".toList, "en".toList) =
        some (translate_text (pureOracle (fun s => 'X' :: s)) defaultConfig
          "en".toList "hi".toList true initState).1) :=
  c3_second_call_from_cache defaultConfig (fun s => 'X' :: s)
    "en".toList "hi".toList
    (fun s => ⟨List.cons_ne_nil 'X' s,
      fun h => by simpa using congrArg List.length h⟩)
    (by decide) (by decide) (by decide)

/-- **C3 (counterexample).** The claim as stated — exactly one live provider
call in total across two cached `translate` calls — fails for a multi-chunk
input: with chunk threshold 10 and a successful provider, translating
`"ab. cd. ef. gh"` twice issues two live calls (one per chunk of the first
call; the second call is served from the cache). -/
theorem c3_single_live_call_counterexample :
    (translate_text (pureOracle (fun s => 'X' :: s)) ⟨10, 5⟩
        "en".toList "ab. cd. ef. gh".toList true
        (translate_text (pureOracle (fun s => 'X' :: s)) ⟨10, 5⟩
          "en".toList "ab. cd. ef. gh".toList true initState).2).2.calls = 2 ∧
    (2 : Nat) ≠ 1 := by decide

/-- **C4 (amended).** `translate_text` performs its *first* cache lookup with
the raw, unnormalized input's key (`build.py:264`); whitespace normalization
happens only after that lookup (`build.py:269`).  For short inputs the
single-chunk path then looks up and stores under the normalized text's key,
so two short inputs differing only in whitespace runs are served by one cache
entry: translating a whitespace-variant `t'` after `t` issues no further live
calls and returns the identical result. -/
theorem c4_raw_key_first_lookup (cfg : TransConfig) (f : PyStr → PyStr)
    (target t t' : PyStr)
    (hf : ∀ s, f s ≠ [] ∧ f s ≠ s)
    (hstrip : pyStrip t ≠ []) (hstrip' : pyStrip t' ≠ [])
    (hnorm : normalizeWs t' = normalizeWs t)
    (hshort : (normalizeWs t).length ≤ cfg.maxChunkLength)
    (hret : 0 < cfg.maxRetries) :
    (translate_text (pureOracle f) cfg target t true initState).2.lookups.head? =
      some (t, target) ∧
    (translate_text (pureOracle f) cfg target t true initState).2.cache =
      [((normalizeWs t, target), f (normalizeWs t))] ∧
    (translate_text (pureOracle f) cfg target t' true
        (translate_text (pureOracle f) cfg target t true initState).2).1 =
      (translate_text (pureOracle f) cfg target t true initState).1 ∧
    (translate_text (pureOracle f) cfg target t' true
        (translate_text (pureOracle f) cfg target t true initState).2).2.calls =
      (translate_text (pureOracle f) cfg target t true initState).2.calls := by
  have h1 := translate_short_fresh f cfg target t hf hstrip hshort hret
  have hws := wellSpaced_normalizeWs t
  have htcne := normalizeWs_ne_of_strip t hstrip
  rw [h1]
  obtain ⟨h2a, h2b, h2c⟩ := translate_short_second (pureOracle f) cfg target t'
    (normalizeWs t) (f (normalizeWs t))
    ⟨[((normalizeWs t, target), f (normalizeWs t))], 1,
      [(t, target), (normalizeWs t, target)]⟩
    hstrip' hnorm hshort rfl (hf _).1 (pyStrip_wellSpaced _ hws) htcne
  exact ⟨rfl, rfl, h2a, by rw [h2b]⟩

theorem c4_raw_key_first_lookup_witness :
    (translate_text (pureOracle (fun s => 'X' :: s)) defaultConfig
        "en".toList "a  b".toList true initState).2.lookups.head? =
      some ("a  b".toList, "en".toList) ∧
    (translate_text (pureOracle (fun s => 'X' :: s)) defaultConfig
        "en".toList "a  b".toList true initState).2.cache =
      [((normalizeWs "a  b".toList, "en".toList),
        'X' :: normalizeWs "a  b".toList)] ∧
    (translate_text (pureOracle (fun s => 'X' :: s)) defaultConfig
        "en".toList "a b".toList true
        (translate_text (pureOracle (fun s => 'X' :: s)) defaultConfig
          "en".toList "a  b".toList true initState).2).1 =
      (translate_text (pureOracle (fun s => 'X' :: s)) defaultConfig
        "en".toList "a  b".toList true initState).1 ∧
    (translate_text (pureOracle (fun s => 'X' :: s)) defaultConfig
        "en".toList "a b".toList true
        (translate_text (pureOracle (fun s => 'X' :: s)) defaultConfig
          "en".toList "a  b".toList true initState).2).2.calls =
      (translate_text (pureOracle (fun s => 'X' :: s)) defaultConfig
        "en".toList "a  b".toList true initState).2.calls :=
  c4_raw_key_first_lookup defaultConfig (fun s => 'X' :: s) "en".toList
    "a  b".toList "a b".toList
    (fun s => ⟨List.cons_ne_nil 'X' s,
      fun h => by simpa using congrArg List.length h⟩)
    (by decide) (by decide) (by decide) (by decide) (by decide)

/-- **C4 (counterexample).** The claim as stated — the key used for *every*
cache lookup is the hash of the normalized text — fails: translating
`"a  b"` performs its first cache lookup with the raw key `"a  b"`, which
differs from the normalized text `"a b"`. -/
theorem c4_normalized_key_counterexample :
    (translate_text (pureOracle (fun s => 'X' :: s)) defaultConfig
        "en".toList "a  b".toList true initState).2.lookups.head? =
      some ("a  b".toList, "en".toList) ∧
    "a  b".toList ≠ normalizeWs "a  b".toList := by decide

end Build
